import Mathlib

/-!
Formal model of `convert_wav.py` (WAV → Mozzi C-header sample converter).

Each definition is a shallow embedding of a fragment of the Python source,
cited by line number.  Machine integers are modelled as `ℤ`/`ℕ`; Python's
floor division `//` and arithmetic right shift are `Int.fdiv`, and
`int(x)` applied to an exact quotient is truncation toward zero
(`Int.tdiv` on integers, `ratTrunc` on rationals).  The floating-point
arithmetic of the resampling stage (lines 100-108) is modelled by exact
rational arithmetic.
-/

namespace ConvertWav

/-- Clamping to an inclusive range, as Python's `max(lo, min(hi, x))`. -/
def clampI (lo hi x : ℤ) : ℤ := max lo (min hi x)

/-- Lines 53-54: an unsigned 8-bit byte becomes a signed 16-bit sample,
`(s - 128) * 256`. -/
def requant8to16 (s : ℕ) : ℤ := ((s : ℤ) - 128) * 256

/-- Lines 113-118: 16-bit to 8-bit reduction.  Python's `int(sample / 256)`
truncates the exact quotient toward zero, then the result is clamped to
`[-128, 127]`. -/
def reduce16to8 (s : ℤ) : ℤ := clampI (-128) 127 (s.tdiv 256)

/-- Lines 64-68: three little-endian bytes form a signed 24-bit value
(two's complement: subtract 2^24 when the MSB is set). -/
def decodeS24 (b1 b2 b3 : ℕ) : ℤ :=
  let v : ℤ := b1 + b2 * 2 ^ 8 + b3 * 2 ^ 16
  if v ≥ 0x800000 then v - 0x1000000 else v

/-- Lines 70-72: 24-bit to 16-bit: arithmetic right shift by 8
(floor division by 256), then clamp to the signed 16-bit range. -/
def requant24to16 (s : ℤ) : ℤ := clampI (-32768) 32767 (s.fdiv 256)

/-- Line 57 (struct format h): two little-endian bytes form a signed
16-bit value. -/
def decodeS16 (b1 b2 : ℕ) : ℤ :=
  let v : ℤ := b1 + b2 * 2 ^ 8
  if v ≥ 0x8000 then v - 0x10000 else v

/-- Line 76 (struct format i): four little-endian bytes form a signed
32-bit value. -/
def decodeS32 (b1 b2 b3 b4 : ℕ) : ℤ :=
  let v : ℤ := b1 + b2 * 2 ^ 8 + b3 * 2 ^ 16 + b4 * 2 ^ 24
  if v ≥ 0x80000000 then v - 0x100000000 else v

/-- Line 77: 32-bit to 16-bit: arithmetic right shift by 16
(floor division by 65536), then clamp to the signed 16-bit range. -/
def requant32to16 (s : ℤ) : ℤ := clampI (-32768) 32767 (s.fdiv 65536)

/-- Pairs of consecutive bytes (width-2 unpacking loop). -/
def bytePairs : List ℕ → List (ℕ × ℕ)
  | b1 :: b2 :: rest => (b1, b2) :: bytePairs rest
  | _ => []

/-- Triples of consecutive bytes (the width-3 loop at lines 61-62 consumes
a triple only while a full one remains). -/
def byteTriples : List ℕ → List (ℕ × ℕ × ℕ)
  | b1 :: b2 :: b3 :: rest => (b1, b2, b3) :: byteTriples rest
  | _ => []

/-- Quadruples of consecutive bytes (width-4 unpacking). -/
def byteQuads : List ℕ → List (ℕ × ℕ × ℕ × ℕ)
  | b1 :: b2 :: b3 :: b4 :: rest => (b1, b2, b3, b4) :: byteQuads rest
  | _ => []

/-- Lines 51-79: convert the raw data bytes to 16-bit samples, by sample
width.  Width 1: bytes are unsigned 8-bit samples, requantized by
`requant8to16`.  Width 2: byte pairs are already 16-bit samples.
Width 3: byte triples are 24-bit samples, shifted and clamped.  Width 4:
byte quadruples are 32-bit samples, shifted and clamped.  Any other width
raises `ValueError` (line 79), modelled as `Except.error`. -/
def requantizeTo16 (sampleWidth : ℕ) (raw : List ℕ) : Except String (List ℤ) :=
  if sampleWidth = 1 then
    .ok (raw.map requant8to16)
  else if sampleWidth = 2 then
    .ok ((bytePairs raw).map fun p => decodeS16 p.1 p.2)
  else if sampleWidth = 3 then
    .ok ((byteTriples raw).map fun t => requant24to16 (decodeS24 t.1 t.2.1 t.2.2))
  else if sampleWidth = 4 then
    .ok ((byteQuads raw).map fun q => requant32to16 (decodeS32 q.1 q.2.1 q.2.2.1 q.2.2.2))
  else
    .error "Unsupported sample width"

/-- Lines 88-92: consecutive pairs of samples are mixed into one sample by
Python's floor division `(samples[i] + samples[i+1]) // 2`; a lone
trailing sample fails the `i + 1 < len(samples)` check and is dropped. -/
def mixPairs : List ℤ → List ℤ
  | a :: b :: rest => (a + b).fdiv 2 :: mixPairs rest
  | _ => []

/-- Lines 82-94: stereo-to-mono mixing.  With 2 channels, the trailing
sample is removed first when the sample count is odd (lines 85-86), then
consecutive pairs are averaged; any other channel count passes through. -/
def mixStage (channels : ℕ) (samples : List ℤ) : List ℤ :=
  if channels = 2 then
    mixPairs (if samples.length % 2 ≠ 0 then samples.dropLast else samples)
  else samples

/-- Truncation of a rational toward zero, as Python's `int(...)` and C's
float-to-integer conversion. -/
def ratTrunc (q : ℚ) : ℤ := q.num.tdiv q.den

/-- Wrapping into the signed 16-bit range, as numpy's `astype(np.int16)`
does after truncation. -/
def wrap16 (x : ℤ) : ℤ := (x + 32768) % 65536 - 32768

/-- Lines 102-103: `new_length = int(len(samples) * (16384 / sample_rate))`,
modelled with exact rational arithmetic in place of the float arithmetic
of the source. -/
def newLength (sourceRate L : ℕ) : ℕ :=
  (ratTrunc ((L : ℚ) * (16384 / (sourceRate : ℚ)))).toNat

/-- Line 106: `np.linspace(0, stop, n)` — n evenly spaced points from 0 to
`stop`; a single point is 0, and no point is produced for n = 0. -/
def linspaceQ (stop : ℚ) (n : ℕ) : List ℚ :=
  if n ≤ 1 then List.replicate n 0
  else (List.range n).map fun (i : ℕ) => stop * (i : ℚ) / ((n : ℚ) - 1)

/-- Line 107: `np.interp` at query position p over sample positions
0, 1, ..., len-1: linear interpolation between the two nearest samples
(the sample itself when p falls on the last position). -/
def interpAt (samples : List ℤ) (p : ℚ) : ℚ :=
  let k := (⌊p⌋).toNat
  match samples.drop k with
  | a :: b :: _ => (a : ℚ) + (p - (k : ℚ)) * ((b : ℚ) - (a : ℚ))
  | [a] => (a : ℚ)
  | [] => 0

/-- Lines 100-108: linear-interpolation resampling to 16384 Hz, then
`astype(np.int16)` (truncation toward zero, wrapped to 16 bits). -/
def resampleList (sourceRate : ℕ) (samples : List ℤ) : List ℤ :=
  let n := newLength sourceRate samples.length
  (linspaceQ ((samples.length : ℚ) - 1) n).map fun p =>
    wrap16 (ratTrunc (interpAt samples p))

/-- Lines 98-110: the resampling stage runs only when the source rate
differs from Mozzi's 16384 Hz target; it returns the samples and the
sample rate recorded afterwards. -/
def resampleStage (sampleRate : ℕ) (samples : List ℤ) : List ℤ × ℕ :=
  if sampleRate ≠ 16384 then (resampleList sampleRate samples, 16384)
  else (samples, sampleRate)

/-- Line 42: `max_frames = int(max_duration * sample_rate)`. -/
def maxFramesFor (maxDuration : ℚ) (sampleRate : ℕ) : ℤ :=
  ratTrunc (maxDuration * (sampleRate : ℚ))

/-- Lines 42-45: the frame count actually read — truncated to `max_frames`
when the file is longer, kept as is otherwise. -/
def keptFrames (maxDuration : ℚ) (sampleRate frames : ℕ) : ℕ :=
  if (frames : ℤ) > maxFramesFor maxDuration sampleRate then
    (maxFramesFor maxDuration sampleRate).toNat
  else frames

/-- Header fields and PCM payload of a WAV file, as read by the `wave`
module: declared frame count, rate, channel count, bytes per sample, and
the raw data bytes. -/
structure WavFile where
  frames : ℕ
  sampleRate : ℕ
  channels : ℕ
  sampleWidth : ℕ
  raw : List ℕ

/-- Line 48: `readframes(frames)` yields the first
`frames * channels * sample_width` data bytes. -/
def readData (w : WavFile) (n : ℕ) : List ℕ :=
  w.raw.take (n * w.channels * w.sampleWidth)

/-- Lines 25-120: the whole per-file conversion pipeline — truncate to the
maximum duration, decode and requantize to 16-bit, mix to mono, resample
to 16384 Hz, and reduce to 8-bit.  The result carries the final samples
and the final sample rate; the `ValueError` for an unsupported sample
width surfaces as `Except.error` (the `except` block at lines 172-176
turns it into a `False` return). -/
def convertWav (maxDuration : ℚ) (w : WavFile) : Except String (List ℤ × ℕ) :=
  match requantizeTo16 w.sampleWidth
      (readData w (keptFrames maxDuration w.sampleRate w.frames)) with
  | .error e => .error e
  | .ok s16 =>
    .ok (((resampleStage w.sampleRate (mixStage w.channels s16)).1).map reduce16to8,
      (resampleStage w.sampleRate (mixStage w.channels s16)).2)

/-- One entry of the batch at lines 182-187: whether the input file exists
(line 197) and whether its conversion returned `True` (line 202). -/
structure BatchItem where
  present : Bool
  convOk : Bool

/-- Lines 192-208: the batch loop — a missing file is skipped with a
warning (`continue`, line 199) leaving `all_success` untouched; a failed
conversion clears `all_success`; every item of the list is visited. -/
def runBatch (items : List BatchItem) : Bool :=
  items.foldl (fun allSuccess it =>
    if it.present = false then allSuccess
    else if it.convOk then allSuccess else false) true

/-- Lines 210-223: process exit status — `sys.exit(1)` when some
conversion failed, normal exit (0) otherwise. -/
def batchExitCode (items : List BatchItem) : ℕ :=
  if runBatch items then 0 else 1

/-- Interleaving of stereo frames into the flat sample order produced by
the decoder: left sample, then right sample, frame by frame. -/
def interleave : List (ℤ × ℤ) → List ℤ
  | [] => []
  | p :: rest => p.1 :: p.2 :: interleave rest

/-- Decimal digit character (0 ↦ '0', ..., 9 ↦ '9'). -/
def digitChar (d : ℕ) : Char := Char.ofNat (48 + d)

/-- Decimal digits of a natural number, most significant digit first. -/
def natDecimal (n : ℕ) : List Char :=
  if n < 10 then [digitChar n]
  else natDecimal (n / 10) ++ [digitChar (n % 10)]
termination_by n
decreasing_by exact Nat.div_lt_self (by omega) (by norm_num)

/-- Decimal text of an integer: an optional minus sign, then the digits. -/
def intDecimal (s : ℤ) : List Char :=
  if s < 0 then '-' :: natDecimal (-s).toNat else natDecimal s.toNat

/-- Line 153: the Python format spec `{s:4d}` — the decimal text
right-aligned in a field of width 4, padded with spaces. -/
def formatSample4 (s : ℤ) : List Char :=
  List.replicate (4 - (intDecimal s).length) ' ' ++ intDecimal s

/-- Line 153: the samples of one row joined by a comma and a space. -/
def renderRow : List ℤ → List Char
  | [] => []
  | [s] => formatSample4 s
  | s :: rest => formatSample4 s ++ ',' :: ' ' :: renderRow rest

/-- Lines 150-151: the sample list split into rows of 16. -/
def chunks16 (xs : List ℤ) : List (List ℤ) :=
  if h : xs = [] then []
  else xs.take 16 :: chunks16 (xs.drop 16)
termination_by xs.length
decreasing_by
  simp only [List.length_drop]
  have : xs.length ≠ 0 := fun h0 => h (List.length_eq_zero.mp h0)
  omega

/-- Lines 150-157: the text of the array body — for each row of 16, four
leading spaces, the formatted row, a comma when more samples follow
(`i + 16 < len(samples)`), and a newline. -/
def renderData (xs : List ℤ) : List Char :=
  if h : xs = [] then []
  else
    List.replicate 4 ' ' ++ renderRow (xs.take 16) ++
      (if 16 < xs.length then [','] else []) ++ '\n' :: renderData (xs.drop 16)
termination_by xs.length
decreasing_by
  simp only [List.length_drop]
  have : xs.length ≠ 0 := fun h0 => h (List.length_eq_zero.mp h0)
  omega

/-- Scalar constants and array body emitted at lines 147-163: the data
text, the `_length` constant (line 162, `len(samples)`), and the
`_samplerate` constant (line 163, the final sample rate). -/
structure MozziHeader where
  dataText : List Char
  lengthConst : ℕ
  rateConst : ℕ

/-- Lines 147-163: header emission for the final sample list. -/
def emitHeader (samples : List ℤ) (sampleRate : ℕ) : MozziHeader :=
  ⟨renderData samples, samples.length, sampleRate⟩

/-- Separator characters of the emitted array body: comma, space,
newline. -/
def isSepChar (c : Char) : Bool := c = ',' || c = ' ' || c = '\n'

/-- Splitting a character list at separator characters (empty pieces
kept; the result is never empty). -/
def splitTokens : List Char → List (List Char)
  | [] => [[]]
  | c :: cs =>
    match splitTokens cs with
    | [] => [[]]
    | t :: ts => if isSepChar c then [] :: t :: ts else (c :: t) :: ts

/-- The maximal separator-free runs of a character list. -/
def tokensOf (cs : List Char) : List (List Char) :=
  (splitTokens cs).filter fun t => !t.isEmpty

/-- Decimal digits read back into a natural number. -/
def parseDigits (cs : List Char) : ℕ :=
  cs.foldl (fun n c => 10 * n + (c.toNat - 48)) 0

/-- A decimal token read back into an integer: a leading minus sign
negates the value of the remaining digits. -/
def parseIntToken (cs : List Char) : ℤ :=
  if cs.head? = some '-' then -(parseDigits cs.tail : ℤ)
  else (parseDigits cs : ℤ)

/-- Reading an emitted array body back into integers: every
separator-free token parsed as a decimal integer. -/
def parseData (cs : List Char) : List ℤ :=
  (tokensOf cs).map parseIntToken

end ConvertWav

open ConvertWav

/-- C1: for the 4-sample input [0, 128, 255, 64] read as unsigned 8-bit
samples, the 8-to-16-bit requantization stage produces exactly
[-32768, 0, 32512, -16384], and applying the 16-to-8-bit reduction stage
to that result produces exactly [-128, 0, 127, -64]. -/
theorem c1_requantize_concrete :
    ([0, 128, 255, 64] : List ℕ).map requant8to16 = [-32768, 0, 32512, -16384] ∧
    ([-32768, 0, 32512, -16384] : List ℤ).map reduce16to8 = [-128, 0, 127, -64] := by
  decide

lemma clampI_spec (lo hi x : ℤ) (h : lo ≤ hi) :
    lo ≤ clampI lo hi x ∧ clampI lo hi x ≤ hi ∧
    (hi < x → clampI lo hi x = hi) ∧ (x < lo → clampI lo hi x = lo) ∧
    (lo ≤ x → x ≤ hi → clampI lo hi x = x) := by
  simp only [clampI, max_def, min_def]
  split_ifs <;>
    exact ⟨by omega, by omega, fun h2 => by omega, fun h2 => by omega,
      fun h2 h3 => by omega⟩

lemma clampI_mono (lo hi : ℤ) {x y : ℤ} (h : x ≤ y) :
    clampI lo hi x ≤ clampI lo hi y :=
  max_le_max le_rfl (min_le_min le_rfl h)

lemma tdiv_mono {c : ℤ} (hc : 0 < c) {a b : ℤ} (h : a ≤ b) :
    a.tdiv c ≤ b.tdiv c := by
  rcases le_or_lt 0 a with ha | ha
  · rw [Int.tdiv_eq_ediv ha hc.le, Int.tdiv_eq_ediv (ha.trans h) hc.le]
    exact Int.ediv_le_ediv hc h
  · rcases le_or_lt 0 b with hb | hb
    · have h1 : 0 ≤ (-a).tdiv c := Int.tdiv_nonneg (by omega) hc.le
      have h2 : 0 ≤ b.tdiv c := Int.tdiv_nonneg hb hc.le
      have h3 := Int.neg_tdiv a c
      omega
    · have h1 : (-b).tdiv c ≤ (-a).tdiv c := by
        rw [Int.tdiv_eq_ediv (by omega) hc.le, Int.tdiv_eq_ediv (by omega) hc.le]
        exact Int.ediv_le_ediv hc (by omega)
      have h2 := Int.neg_tdiv a c
      have h3 := Int.neg_tdiv b c
      omega

lemma fdiv_mono {c : ℤ} (hc : 0 < c) {a b : ℤ} (h : a ≤ b) :
    a.fdiv c ≤ b.fdiv c := by
  rw [Int.fdiv_eq_ediv a hc.le, Int.fdiv_eq_ediv b hc.le]
  exact Int.ediv_le_ediv hc h

/-- C4: every narrowing requantization saturates rather than wraps: for
every input sample, each 24-to-16-bit and 32-to-16-bit output lies in
[-32768, 32767] and each 16-to-8-bit output lies in [-128, 127], and an
out-of-range shifted value is clamped to the nearest bound. -/
theorem c4_saturation (s : ℤ) :
    (-32768 ≤ requant24to16 s ∧ requant24to16 s ≤ 32767) ∧
    (-32768 ≤ requant32to16 s ∧ requant32to16 s ≤ 32767) ∧
    (-128 ≤ reduce16to8 s ∧ reduce16to8 s ≤ 127) ∧
    (32767 < s.fdiv 256 → requant24to16 s = 32767) ∧
    (s.fdiv 256 < -32768 → requant24to16 s = -32768) ∧
    (32767 < s.fdiv 65536 → requant32to16 s = 32767) ∧
    (s.fdiv 65536 < -32768 → requant32to16 s = -32768) ∧
    (127 < s.tdiv 256 → reduce16to8 s = 127) ∧
    (s.tdiv 256 < -128 → reduce16to8 s = -128) := by
  have h24 := clampI_spec (-32768) 32767 (s.fdiv 256) (by norm_num)
  have h32 := clampI_spec (-32768) 32767 (s.fdiv 65536) (by norm_num)
  have h8 := clampI_spec (-128) 127 (s.tdiv 256) (by norm_num)
  unfold requant24to16 requant32to16 reduce16to8
  exact ⟨⟨h24.1, h24.2.1⟩, ⟨h32.1, h32.2.1⟩, ⟨h8.1, h8.2.1⟩,
    h24.2.2.1, h24.2.2.2.1, h32.2.2.1, h32.2.2.2.1, h8.2.2.1, h8.2.2.2.1⟩

/-- Witness for C4 at concrete out-of-range inputs: a large positive
24-bit-path value clamps to 32767 and a large negative 32-bit-path value
clamps to -32768. -/
theorem c4_saturation_witness :
    requant24to16 8389000 = 32767 ∧ requant32to16 (-2147549184) = -32768 := by
  refine ⟨(c4_saturation 8389000).2.2.2.1 (by decide),
    (c4_saturation (-2147549184)).2.2.2.2.2.2.1 (by decide)⟩

/-- C8: for every supported input bit depth (8, 16, 24, 32), the
composition of requantization to 16-bit (the identity for 16-bit input)
followed by reduction to 8-bit is monotone: inputs in order map to
outputs in order, and no sign is inverted (a nonnegative sample stays
nonnegative and a nonpositive sample stays nonpositive; for the unsigned
8-bit depth, relative to the midpoint 128). -/
theorem c8_monotone (m n : ℕ) (a b : ℤ) (hmn : m ≤ n) (hab : a ≤ b) :
    reduce16to8 (requant8to16 m) ≤ reduce16to8 (requant8to16 n) ∧
    reduce16to8 a ≤ reduce16to8 b ∧
    reduce16to8 (requant24to16 a) ≤ reduce16to8 (requant24to16 b) ∧
    reduce16to8 (requant32to16 a) ≤ reduce16to8 (requant32to16 b) ∧
    (128 ≤ m → 0 ≤ reduce16to8 (requant8to16 m)) ∧
    (m ≤ 128 → reduce16to8 (requant8to16 m) ≤ 0) ∧
    (0 ≤ a → 0 ≤ reduce16to8 a ∧ 0 ≤ reduce16to8 (requant24to16 a) ∧
      0 ≤ reduce16to8 (requant32to16 a)) ∧
    (a ≤ 0 → reduce16to8 a ≤ 0 ∧ reduce16to8 (requant24to16 a) ≤ 0 ∧
      reduce16to8 (requant32to16 a) ≤ 0) := by
  have mono8 : requant8to16 m ≤ requant8to16 n := by
    unfold requant8to16
    have : (m : ℤ) ≤ (n : ℤ) := by exact_mod_cast hmn
    omega
  have red : ∀ {x y : ℤ}, x ≤ y → reduce16to8 x ≤ reduce16to8 y := by
    intro x y h
    exact clampI_mono _ _ (tdiv_mono (by norm_num) h)
  have r24 : ∀ {x y : ℤ}, x ≤ y → requant24to16 x ≤ requant24to16 y := by
    intro x y h
    exact clampI_mono _ _ (fdiv_mono (by norm_num) h)
  have r32 : ∀ {x y : ℤ}, x ≤ y → requant32to16 x ≤ requant32to16 y := by
    intro x y h
    exact clampI_mono _ _ (fdiv_mono (by norm_num) h)
  have z8 : reduce16to8 (requant8to16 128) = 0 := by decide
  have z16 : reduce16to8 (0 : ℤ) = 0 := by decide
  have z24 : reduce16to8 (requant24to16 0) = 0 := by decide
  have z32 : reduce16to8 (requant32to16 0) = 0 := by decide
  refine ⟨red mono8, red hab, red (r24 hab), red (r32 hab), ?_, ?_, ?_, ?_⟩
  · intro h
    have : requant8to16 128 ≤ requant8to16 m := by
      unfold requant8to16
      have : (128 : ℤ) ≤ (m : ℤ) := by exact_mod_cast h
      omega
    have := red this
    omega
  · intro h
    have : requant8to16 m ≤ requant8to16 128 := by
      unfold requant8to16
      have : (m : ℤ) ≤ (128 : ℤ) := by exact_mod_cast h
      omega
    have := red this
    omega
  · intro h
    refine ⟨?_, ?_, ?_⟩
    · have := red h; omega
    · have := red (r24 h); omega
    · have := red (r32 h); omega
  · intro h
    refine ⟨?_, ?_, ?_⟩
    · have := red h; omega
    · have := red (r24 h); omega
    · have := red (r32 h); omega

/-- Witness for C8 at concrete inputs 100 ≤ 200 (8-bit) and
-70000 ≤ 300000 (wider depths). -/
theorem c8_monotone_witness :
    reduce16to8 (requant8to16 100) ≤ reduce16to8 (requant8to16 200) ∧
    reduce16to8 (-70000) ≤ reduce16to8 300000 ∧
    reduce16to8 (requant24to16 (-70000)) ≤ reduce16to8 (requant24to16 300000) ∧
    reduce16to8 (requant32to16 (-70000)) ≤ reduce16to8 (requant32to16 300000) := by
  have h := c8_monotone 100 200 (-70000) 300000 (by decide) (by decide)
  exact ⟨h.1, h.2.1, h.2.2.1, h.2.2.2.1⟩

lemma ratTrunc_eq_floor {q : ℚ} (h : 0 ≤ q) : ratTrunc q = ⌊q⌋ := by
  rw [ratTrunc, Rat.floor_def, Int.tdiv_eq_ediv (Rat.num_nonneg.mpr h) (by positivity)]

lemma resampleStage_snd (rate : ℕ) (samples : List ℤ) :
    (resampleStage rate samples).2 = 16384 := by
  simp only [resampleStage]
  split_ifs with h
  · rfl
  · exact not_ne_iff.mp h

/-- C7: when the source rate already equals the 16384 Hz target, the
resampling stage is the identity: the samples pass through unchanged. -/
theorem c7_resample_identity (samples : List ℤ) :
    resampleStage 16384 samples = (samples, 16384) := by
  simp [resampleStage]

/-- C10: whatever the input sample rate, a successful conversion reports
the final rate 16384, and the emitted samplerate constant in the header
equals 16384. -/
theorem c10_output_rate (d : ℚ) (w : WavFile) (out : List ℤ × ℕ)
    (h : convertWav d w = .ok out) :
    out.2 = 16384 ∧ (emitHeader out.1 out.2).rateConst = 16384 := by
  unfold convertWav at h
  cases hq : requantizeTo16 w.sampleWidth
      (readData w (keptFrames d w.sampleRate w.frames)) with
  | error e =>
      rw [hq] at h
      exact Except.noConfusion h
  | ok s16 =>
      rw [hq] at h
      simp only [Except.ok.injEq] at h
      have h2 : out.2 = (resampleStage w.sampleRate (mixStage w.channels s16)).2 := by
        rw [← h]
      rw [h2, resampleStage_snd]
      exact ⟨rfl, rfl⟩

/-- Witness for C10: a concrete 16384 Hz, 8-bit, mono, 1-frame file
converts successfully and the reported rate is 16384. -/
theorem c10_output_rate_witness :
    (([0] : List ℤ), (16384 : ℕ)).2 = 16384 ∧
    (emitHeader [0] 16384).rateConst = 16384 := by
  have hmf : maxFramesFor 5 16384 = 81920 := by
    unfold maxFramesFor
    rw [show (5 : ℚ) * ((16384 : ℕ) : ℚ) = ((81920 : ℤ) : ℚ) by norm_num]
    rw [ratTrunc_eq_floor (by norm_num), Int.floor_intCast]
  have hk : keptFrames 5 16384 1 = 1 := by
    unfold keptFrames
    rw [hmf]
    norm_num
  have hconv : convertWav 5 ⟨1, 16384, 1, 1, [128]⟩ = .ok ([0], 16384) := by
    unfold convertWav
    simp only [hk]
    rfl
  exact c10_output_rate 5 ⟨1, 16384, 1, 1, [128]⟩ ([0], 16384) hconv

lemma runBatch_eq_all (items : List BatchItem) :
    runBatch items = items.all fun it => !it.present || it.convOk := by
  have key : ∀ (l : List BatchItem) (acc : Bool),
      l.foldl (fun allSuccess it =>
        if it.present = false then allSuccess
        else if it.convOk then allSuccess else false) acc
        = (acc && l.all fun it => !it.present || it.convOk) := by
    intro l
    induction l with
    | nil => intro acc; simp
    | cons it rest ih =>
        intro acc
        simp only [List.foldl_cons, List.all_cons, ih]
        cases hp : it.present <;> cases hc : it.convOk <;> simp [hp, hc]
  simpa [runBatch] using key items true

/-- Counterexample to C3: a batch whose only input file is missing (and
whose conversion, had it run, would have failed) exits with status 0 —
the driver skips missing files without marking the batch failed. -/
theorem c3_counterexample : batchExitCode [⟨false, false⟩] = 0 := rfl

/-- C3 (amended): the batch driver exits 0 exactly when every conversion
it attempted (on a present input file) succeeded, and exits 1 exactly
when some present file's conversion failed; missing input files are
skipped and never affect the exit status. -/
theorem c3_exit_amended (items : List BatchItem) :
    (batchExitCode items = 0 ↔
      ∀ it ∈ items, it.present = true → it.convOk = true) ∧
    (batchExitCode items = 1 ↔
      ∃ it ∈ items, it.present = true ∧ it.convOk = false) ∧
    (∀ it : BatchItem, it.present = false →
      batchExitCode (it :: items) = batchExitCode items) := by
  have hiff : runBatch items = true ↔
      ∀ it ∈ items, it.present = true → it.convOk = true := by
    rw [runBatch_eq_all, List.all_eq_true]
    constructor
    · intro h it hmem hp
      have := h it hmem
      rw [hp] at this
      simpa using this
    · intro h it hmem
      cases hp : it.present
      · simp
      · simpa using h it hmem hp
  refine ⟨?_, ?_, ?_⟩
  · unfold batchExitCode
    constructor
    · intro h
      cases hrb : runBatch items with
      | false => rw [hrb] at h; simp at h
      | true => exact hiff.mp hrb
    · intro h
      rw [hiff.mpr h]
      simp
  · unfold batchExitCode
    constructor
    · intro h
      cases hrb : runBatch items with
      | false =>
          have hno : ¬ ∀ it ∈ items, it.present = true → it.convOk = true := by
            intro hall
            rw [hiff.mpr hall] at hrb
            cases hrb
          push_neg at hno
          obtain ⟨it, hmem, hp, hc⟩ := hno
          exact ⟨it, hmem, hp, by simpa using hc⟩
      | true => rw [hrb] at h; simp at h
    · rintro ⟨it, hmem, hp, hc⟩
      cases hrb : runBatch items with
      | false => simp
      | true =>
          have := hiff.mp hrb it hmem hp
          rw [hc] at this
          cases this
  · intro it hp
    unfold batchExitCode
    rw [runBatch_eq_all, runBatch_eq_all, List.all_cons, hp]
    simp

/-- Witness for C3 (amended): a batch of one successful conversion and
one skipped missing file exits 0. -/
theorem c3_exit_amended_witness :
    batchExitCode [⟨true, true⟩, ⟨false, false⟩] = 0 :=
  (c3_exit_amended [⟨true, true⟩, ⟨false, false⟩]).1.mpr (by decide)

/-- C5: an input of exactly floor(max_duration * sample_rate) frames is
kept whole; an input exceeding that bound is cut to exactly
floor(max_duration * sample_rate) frames; and the truncation is only a
warning — conversion still succeeds for every supported sample width. -/
theorem c5_truncation (d : ℚ) (rate frames : ℕ) (w : WavFile) (hd : 0 ≤ d) :
    ((frames : ℤ) = ⌊d * (rate : ℚ)⌋ → keptFrames d rate frames = frames) ∧
    (⌊d * (rate : ℚ)⌋ < (frames : ℤ) →
      (keptFrames d rate frames : ℤ) = ⌊d * (rate : ℚ)⌋) ∧
    (w.sampleWidth = 1 ∨ w.sampleWidth = 2 ∨ w.sampleWidth = 3 ∨ w.sampleWidth = 4 →
      ∃ out, convertWav d w = Except.ok out) := by
  have hmf : maxFramesFor d rate = ⌊d * (rate : ℚ)⌋ := by
    unfold maxFramesFor
    exact ratTrunc_eq_floor (mul_nonneg hd (by positivity))
  have hfl : (0 : ℤ) ≤ ⌊d * (rate : ℚ)⌋ :=
    Int.floor_nonneg.mpr (mul_nonneg hd (by positivity))
  refine ⟨?_, ?_, ?_⟩
  · intro h
    unfold keptFrames
    rw [hmf, if_neg (by omega)]
  · intro h
    unfold keptFrames
    rw [hmf, if_pos (by omega)]
    exact Int.toNat_of_nonneg hfl
  · intro hw
    unfold convertWav
    rcases hw with h1 | h2 | h3 | h4
    · rw [h1]; simp [requantizeTo16]
    · rw [h2]; simp [requantizeTo16]
    · rw [h3]; simp [requantizeTo16]
    · rw [h4]; simp [requantizeTo16]

/-- Witness for C5: with max duration 2 s at 3 Hz the bound is 6 frames —
a 6-frame input is kept whole, a 7-frame input is cut to 6, and a
concrete supported file converts successfully. -/
theorem c5_truncation_witness :
    keptFrames 2 3 6 = 6 ∧ (keptFrames 2 3 7 : ℤ) = ⌊(2 : ℚ) * ((3 : ℕ) : ℚ)⌋ ∧
    ∃ out, convertWav 2 ⟨1, 16384, 1, 1, [128]⟩ = Except.ok out := by
  refine ⟨(c5_truncation 2 3 6 ⟨1, 16384, 1, 1, [128]⟩ (by norm_num)).1 (by norm_num),
    (c5_truncation 2 3 7 ⟨1, 16384, 1, 1, [128]⟩ (by norm_num)).2.1 (by norm_num),
    (c5_truncation 2 3 7 ⟨1, 16384, 1, 1, [128]⟩ (by norm_num)).2.2 (Or.inl rfl)⟩

lemma linspaceQ_length (stop : ℚ) (n : ℕ) : (linspaceQ stop n).length = n := by
  unfold linspaceQ
  split_ifs
  · exact List.length_replicate n 0
  · rw [List.length_map, List.length_range]

lemma resampleList_length (rate : ℕ) (samples : List ℤ) :
    (resampleList rate samples).length = newLength rate samples.length := by
  unfold resampleList
  rw [List.length_map, linspaceQ_length]

lemma newLength_eq (rate L : ℕ) (hr : 0 < rate) :
    newLength rate L = L * 16384 / rate := by
  unfold newLength
  have h1 : (L : ℚ) * (16384 / (rate : ℚ)) = ((L * 16384 : ℕ) : ℚ) / ((rate : ℕ) : ℚ) := by
    push_cast
    ring
  rw [h1, ratTrunc_eq_floor (by positivity), Rat.floor_natCast_div_natCast,
    ← Int.natCast_div]
  exact Int.toNat_natCast _

lemma floor_round_gap (q : ℚ) : ⌊q⌋ ≤ round q ∧ round q ≤ ⌊q⌋ + 1 := by
  rw [round_eq]
  refine ⟨Int.floor_le_floor (by linarith), ?_⟩
  calc ⌊q + 1 / 2⌋ ≤ ⌊q + 1⌋ := Int.floor_le_floor (by linarith)
    _ = ⌊q⌋ + 1 := Int.floor_add_one q

/-- Counterexample to C2: resampling 11 mono samples from 8000 Hz gives
22 output samples, but round(11 * 16384 / 8000) = round(22.528) = 23 —
the produced length is the truncated value, not the rounded one. -/
theorem c2_counterexample :
    (resampleList 8000 (List.replicate 11 0)).length = 22 ∧
    round ((11 * 16384 : ℚ) / 8000) = 23 := by
  constructor
  · rw [resampleList_length, List.length_replicate, newLength_eq 8000 11 (by norm_num)]
  · norm_num [round_eq]

/-- C2 (amended): for source_rate ≠ 16384, the resampler's output length
is the truncation floor(old_length * 16384 / source_rate), which always
lies within 1 of round(old_length * 16384 / source_rate). -/
theorem c2_length_amended (rate : ℕ) (samples : List ℤ) (hr : 0 < rate)
    (hne : rate ≠ 16384) :
    ((resampleStage rate samples).1).length = samples.length * 16384 / rate ∧
    (round (((samples.length * 16384 : ℕ) : ℚ) / ((rate : ℕ) : ℚ)) -
      (((resampleStage rate samples).1).length : ℤ)).natAbs ≤ 1 := by
  have hstage : (resampleStage rate samples).1 = resampleList rate samples := by
    simp [resampleStage, hne]
  have hlen : (resampleList rate samples).length = samples.length * 16384 / rate := by
    rw [resampleList_length, newLength_eq _ _ hr]
  have hfl : ((samples.length * 16384 / rate : ℕ) : ℤ) =
      ⌊((samples.length * 16384 : ℕ) : ℚ) / ((rate : ℕ) : ℚ)⌋ :=
    (Rat.floor_natCast_div_natCast _ _).symm
  have hgap := floor_round_gap (((samples.length * 16384 : ℕ) : ℚ) / ((rate : ℕ) : ℚ))
  refine ⟨by rw [hstage, hlen], ?_⟩
  rw [hstage, hlen]
  omega

/-- Witness for C2 (amended) at 11 samples and 8000 Hz: length 22 and
distance 1 from the rounded value 23. -/
theorem c2_length_amended_witness :
    ((resampleStage 8000 (List.replicate 11 0)).1).length = 11 * 16384 / 8000 ∧
    (round (((11 * 16384 : ℕ) : ℚ) / ((8000 : ℕ) : ℚ)) -
      (((resampleStage 8000 (List.replicate 11 0)).1).length : ℤ)).natAbs ≤ 1 := by
  have h := c2_length_amended 8000 (List.replicate 11 0) (by norm_num) (by norm_num)
  rw [List.length_replicate] at h
  exact h

lemma interleave_length (frames : List (ℤ × ℤ)) :
    (interleave frames).length = 2 * frames.length := by
  induction frames with
  | nil => rfl
  | cons p fs ih =>
      simp only [interleave, List.length_cons, ih]
      omega

lemma mixPairs_interleave (frames : List (ℤ × ℤ)) :
    mixPairs (interleave frames) = frames.map fun p => (p.1 + p.2).fdiv 2 := by
  induction frames with
  | nil => rfl
  | cons p fs ih => simp [interleave, mixPairs, ih]

lemma half_of_double (a : ℤ) : (a + a).fdiv 2 = a := by
  rw [show a + a = 2 * a by ring, Int.fdiv_eq_ediv _ (by norm_num)]
  exact Int.mul_ediv_cancel_left a (by norm_num)

/-- Counterexample to C6: the mixer averages with floor division, not
truncating division — on the single stereo frame (-1, 0) the code yields
-1 while the truncating average is 0. -/
theorem c6_counterexample : mixStage 2 [-1, 0] ≠ [Int.tdiv (-1 + 0) 2] := by
  decide

/-- C6 (amended): the channel mixer drops the trailing sample of an
odd-length interleaved sequence, then outputs for each stereo frame the
floor (not truncating) integer average of its two channels; a frame with
equal channels maps to that value exactly. -/
theorem c6_mix_amended (frames : List (ℤ × ℤ)) (x : ℤ) :
    mixStage 2 (interleave frames) = frames.map (fun p => (p.1 + p.2).fdiv 2) ∧
    mixStage 2 (interleave frames ++ [x]) =
      frames.map (fun p => (p.1 + p.2).fdiv 2) ∧
    ((∀ p ∈ frames, p.1 = p.2) →
      mixStage 2 (interleave frames) = frames.map Prod.fst) := by
  have hlen := interleave_length frames
  have heven : (interleave frames).length % 2 = 0 := by omega
  have h1 : mixStage 2 (interleave frames) =
      frames.map fun p => (p.1 + p.2).fdiv 2 := by
    unfold mixStage
    rw [if_pos rfl, if_neg (by omega), mixPairs_interleave]
  have hodd : (interleave frames ++ [x]).length % 2 ≠ 0 := by
    rw [List.length_append]
    simp only [List.length_cons, List.length_nil]
    omega
  refine ⟨h1, ?_, ?_⟩
  · unfold mixStage
    rw [if_pos rfl, if_pos hodd, List.dropLast_concat, mixPairs_interleave]
  · intro h
    rw [h1]
    apply List.map_congr_left
    intro p hp
    rw [← h p hp]
    exact half_of_double p.1

/-- Witness for C6 (amended): the equal-channel frame (3, 3) mixes to
exactly 3. -/
theorem c6_mix_amended_witness :
    mixStage 2 (interleave [((3 : ℤ), (3 : ℤ))]) =
      [((3 : ℤ), (3 : ℤ))].map Prod.fst :=
  (c6_mix_amended [(3, 3)] 0).2.2 (by decide)

lemma digitChar_toNat {d : ℕ} (h : d < 10) : (digitChar d).toNat = 48 + d := by
  interval_cases d <;> rfl

lemma natDecimal_digits (n : ℕ) : ∀ c ∈ natDecimal n, 48 ≤ c.toNat ∧ c.toNat ≤ 57 := by
  induction n using Nat.strong_induction_on with
  | _ n ih =>
    rw [natDecimal]
    split_ifs with h
    · intro c hc
      rw [List.mem_singleton] at hc
      subst hc
      rw [digitChar_toNat h]
      omega
    · intro c hc
      rw [List.mem_append] at hc
      rcases hc with hc | hc
      · exact ih (n / 10) (Nat.div_lt_self (by omega) (by norm_num)) c hc
      · rw [List.mem_singleton] at hc
        subst hc
        rw [digitChar_toNat (Nat.mod_lt _ (by norm_num))]
        omega

lemma natDecimal_ne_nil (n : ℕ) : natDecimal n ≠ [] := by
  rw [natDecimal]
  split_ifs <;> simp

lemma isSepChar_eq_false_of_digit {c : Char} (h1 : 48 ≤ c.toNat) (h2 : c.toNat ≤ 57) :
    isSepChar c = false := by
  unfold isSepChar
  have hne1 : c ≠ ',' := fun he => by subst he; exact absurd h1 (by decide)
  have hne2 : c ≠ ' ' := fun he => by subst he; exact absurd h1 (by decide)
  have hne3 : c ≠ '\n' := fun he => by subst he; exact absurd h1 (by decide)
  rw [decide_eq_false hne1, decide_eq_false hne2, decide_eq_false hne3]
  rfl

lemma natDecimal_not_sep (n : ℕ) : ∀ c ∈ natDecimal n, isSepChar c = false := by
  intro c hc
  obtain ⟨h1, h2⟩ := natDecimal_digits n c hc
  exact isSepChar_eq_false_of_digit h1 h2

lemma intDecimal_ne_nil (s : ℤ) : intDecimal s ≠ [] := by
  unfold intDecimal
  split_ifs
  · simp
  · exact natDecimal_ne_nil _

lemma intDecimal_not_sep (s : ℤ) : ∀ c ∈ intDecimal s, isSepChar c = false := by
  unfold intDecimal
  split_ifs with h
  · intro c hc
    rcases List.mem_cons.mp hc with rfl | hc
    · rfl
    · exact natDecimal_not_sep _ c hc
  · exact natDecimal_not_sep _

lemma parseDigits_append_digit (a : List Char) (c : Char) :
    parseDigits (a ++ [c]) = 10 * parseDigits a + (c.toNat - 48) := by
  unfold parseDigits
  rw [List.foldl_append]
  rfl

lemma parseDigits_natDecimal (n : ℕ) : parseDigits (natDecimal n) = n := by
  induction n using Nat.strong_induction_on with
  | _ n ih =>
    rw [natDecimal]
    split_ifs with h
    · show parseDigits [digitChar n] = n
      unfold parseDigits
      simp only [List.foldl_cons, List.foldl_nil]
      rw [digitChar_toNat h]
      omega
    · rw [parseDigits_append_digit,
        ih (n / 10) (Nat.div_lt_self (by omega) (by norm_num)),
        digitChar_toNat (Nat.mod_lt _ (by norm_num))]
      omega

lemma parseIntToken_intDecimal (s : ℤ) : parseIntToken (intDecimal s) = s := by
  by_cases h : s < 0
  · rw [intDecimal, if_pos h, parseIntToken]
    rw [if_pos (by simp)]
    simp only [List.tail_cons]
    rw [parseDigits_natDecimal]
    have h2 : ((-s).toNat : ℤ) = -s := Int.toNat_of_nonneg (by omega)
    omega
  · rw [intDecimal, if_neg h, parseIntToken]
    have hd : (natDecimal s.toNat).head? ≠ some '-' := by
      cases hnd : natDecimal s.toNat with
      | nil => exact absurd hnd (natDecimal_ne_nil _)
      | cons c cs =>
          simp only [List.head?_cons]
          intro he
          injection he with he
          subst he
          have hmem : '-' ∈ natDecimal s.toNat := by
            rw [hnd]
            exact List.mem_cons_self _ _
          exact absurd (natDecimal_digits s.toNat _ hmem).1 (by decide)
    rw [if_neg hd, parseDigits_natDecimal]
    exact Int.toNat_of_nonneg (by omega)

lemma splitTokens_ne_nil (cs : List Char) : splitTokens cs ≠ [] := by
  cases cs with
  | nil => simp [splitTokens]
  | cons c cs =>
      rw [splitTokens]
      cases h : splitTokens cs with
      | nil => simp
      | cons t ts => split_ifs <;> simp

lemma splitTokens_sep_cons {c : Char} (h : isSepChar c = true) (cs : List Char) :
    splitTokens (c :: cs) = [] :: splitTokens cs := by
  rw [splitTokens]
  cases hs : splitTokens cs with
  | nil => exact absurd hs (splitTokens_ne_nil cs)
  | cons t ts => simp [h]

lemma splitTokens_token (tok : List Char) (htok : ∀ x ∈ tok, isSepChar x = false)
    {c : Char} (hc : isSepChar c = true) (rest : List Char) :
    splitTokens (tok ++ c :: rest) = tok :: splitTokens rest := by
  induction tok with
  | nil => simpa using splitTokens_sep_cons hc rest
  | cons x tok ih =>
      have hx : isSepChar x = false := htok x (List.mem_cons_self _ _)
      have ih2 := ih fun y hy => htok y (List.mem_cons_of_mem _ hy)
      rw [List.cons_append, splitTokens, ih2]
      simp [hx]

lemma tokensOf_sep_cons {c : Char} (h : isSepChar c = true) (cs : List Char) :
    tokensOf (c :: cs) = tokensOf cs := by
  unfold tokensOf
  rw [splitTokens_sep_cons h]
  rfl

lemma tokensOf_token (tok : List Char) (hne : tok ≠ [])
    (htok : ∀ x ∈ tok, isSepChar x = false)
    {c : Char} (hc : isSepChar c = true) (rest : List Char) :
    tokensOf (tok ++ c :: rest) = tok :: tokensOf rest := by
  have hE : tok.isEmpty = false := by
    cases tok with
    | nil => exact absurd rfl hne
    | cons a l => rfl
  unfold tokensOf
  rw [splitTokens_token tok htok hc]
  simp [List.filter_cons, hE]

lemma tokensOf_spaces (k : ℕ) (l : List Char) :
    tokensOf (List.replicate k ' ' ++ l) = tokensOf l := by
  induction k with
  | zero => rfl
  | succ k ih =>
      rw [List.replicate_succ, List.cons_append, tokensOf_sep_cons (by rfl), ih]

lemma tokensOf_formatSample4 (s : ℤ) {c : Char} (hc : isSepChar c = true)
    (rest : List Char) :
    tokensOf (formatSample4 s ++ c :: rest) = intDecimal s :: tokensOf rest := by
  unfold formatSample4
  rw [List.append_assoc, tokensOf_spaces,
    tokensOf_token _ (intDecimal_ne_nil s) (intDecimal_not_sep s) hc]

lemma tokensOf_renderRow (chunk : List ℤ) {c : Char} (hc : isSepChar c = true)
    (rest : List Char) :
    tokensOf (renderRow chunk ++ c :: rest) =
      chunk.map intDecimal ++ tokensOf rest := by
  induction chunk with
  | nil => simpa [renderRow] using tokensOf_sep_cons hc rest
  | cons s chunk ih =>
      cases chunk with
      | nil =>
          rw [show renderRow [s] = formatSample4 s from rfl,
            tokensOf_formatSample4 s hc]
          rfl
      | cons s2 chunk2 =>
          rw [show renderRow (s :: s2 :: chunk2) =
            formatSample4 s ++ ',' :: ' ' :: renderRow (s2 :: chunk2) from rfl]
          rw [List.append_assoc, List.cons_append, List.cons_append,
            tokensOf_formatSample4 s (by rfl),
            tokensOf_sep_cons (by rfl), ih]
          rfl

lemma comma_count_formatSample4 (s : ℤ) : (formatSample4 s).count ',' = 0 := by
  unfold formatSample4
  rw [List.count_append]
  have h1 : (List.replicate (4 - (intDecimal s).length) ' ').count ',' = 0 := by
    rw [List.count_eq_zero]
    intro hmem
    exact absurd (List.eq_of_mem_replicate hmem) (by decide)
  have h2 : (intDecimal s).count ',' = 0 := by
    rw [List.count_eq_zero]
    intro hmem
    have hf := intDecimal_not_sep s ',' hmem
    have ht : isSepChar ',' = true := by decide
    rw [ht] at hf
    exact Bool.noConfusion hf
  omega

lemma newline_count_formatSample4 (s : ℤ) : (formatSample4 s).count '\n' = 0 := by
  unfold formatSample4
  rw [List.count_append]
  have h1 : (List.replicate (4 - (intDecimal s).length) ' ').count '\n' = 0 := by
    rw [List.count_eq_zero]
    intro hmem
    exact absurd (List.eq_of_mem_replicate hmem) (by decide)
  have h2 : (intDecimal s).count '\n' = 0 := by
    rw [List.count_eq_zero]
    intro hmem
    have hf := intDecimal_not_sep s '\n' hmem
    have ht : isSepChar '\n' = true := by decide
    rw [ht] at hf
    exact Bool.noConfusion hf
  omega

lemma comma_count_renderRow (chunk : List ℤ) :
    (renderRow chunk).count ',' = chunk.length - 1 := by
  induction chunk with
  | nil => rfl
  | cons s chunk ih =>
      cases chunk with
      | nil =>
          rw [show renderRow [s] = formatSample4 s from rfl,
            comma_count_formatSample4]
          simp
      | cons s2 c2 =>
          rw [show renderRow (s :: s2 :: c2) =
            formatSample4 s ++ ',' :: ' ' :: renderRow (s2 :: c2) from rfl]
          rw [List.count_append, comma_count_formatSample4, List.count_cons_self,
            List.count_cons_of_ne (by decide), ih]
          simp only [List.length_cons]
          omega

lemma newline_count_renderRow (chunk : List ℤ) :
    (renderRow chunk).count '\n' = 0 := by
  induction chunk with
  | nil => rfl
  | cons s chunk ih =>
      cases chunk with
      | nil =>
          rw [show renderRow [s] = formatSample4 s from rfl,
            newline_count_formatSample4]
      | cons s2 c2 =>
          rw [show renderRow (s :: s2 :: c2) =
            formatSample4 s ++ ',' :: ' ' :: renderRow (s2 :: c2) from rfl]
          rw [List.count_append, newline_count_formatSample4,
            List.count_cons_of_ne (by decide), List.count_cons_of_ne (by decide), ih]

lemma chunks16_nil : chunks16 [] = [] := by
  rw [chunks16]
  simp

lemma chunks16_cons (xs : List ℤ) (hx : xs ≠ []) :
    chunks16 xs = xs.take 16 :: chunks16 (xs.drop 16) := by
  rw [chunks16, dif_neg hx]

lemma chunks16_join (xs : List ℤ) : (chunks16 xs).join = xs := by
  have H : ∀ (k : ℕ) (xs : List ℤ), xs.length ≤ k → (chunks16 xs).join = xs := by
    intro k
    induction k with
    | zero =>
        intro xs h
        have hx : xs = [] := List.eq_nil_of_length_eq_zero (by omega)
        subst hx
        rw [chunks16_nil]
        rfl
    | succ k ih =>
        intro xs h
        by_cases hx : xs = []
        · subst hx
          rw [chunks16_nil]
          rfl
        · have hlen : xs.length ≠ 0 := fun h0 => hx (List.eq_nil_of_length_eq_zero h0)
          rw [chunks16_cons xs hx]
          show xs.take 16 ++ (chunks16 (xs.drop 16)).join = xs
          rw [ih (xs.drop 16) (by rw [List.length_drop]; omega)]
          exact List.take_append_drop 16 xs
  exact H xs.length xs le_rfl

lemma mem_chunks16_facts (xs : List ℤ) :
    ∀ c ∈ chunks16 xs, c ≠ [] ∧ c.length ≤ 16 := by
  have H : ∀ (k : ℕ) (xs : List ℤ), xs.length ≤ k →
      ∀ c ∈ chunks16 xs, c ≠ [] ∧ c.length ≤ 16 := by
    intro k
    induction k with
    | zero =>
        intro xs h c hc
        have hx : xs = [] := List.eq_nil_of_length_eq_zero (by omega)
        subst hx
        rw [chunks16_nil] at hc
        exact absurd hc (List.not_mem_nil c)
    | succ k ih =>
        intro xs h c hc
        by_cases hx : xs = []
        · subst hx
          rw [chunks16_nil] at hc
          exact absurd hc (List.not_mem_nil c)
        · have hlen : xs.length ≠ 0 := fun h0 => hx (List.eq_nil_of_length_eq_zero h0)
          rw [chunks16_cons xs hx] at hc
          rcases List.mem_cons.mp hc with rfl | hc
          · refine ⟨?_, ?_⟩
            · rw [Ne, List.take_eq_nil_iff]
              push_neg
              exact ⟨by norm_num, hx⟩
            · rw [List.length_take]
              omega
          · exact ih (xs.drop 16) (by rw [List.length_drop]; omega) c hc
  exact H xs.length xs le_rfl

lemma chunks16_dropLast_sixteen (xs : List ℤ) :
    ∀ c ∈ (chunks16 xs).dropLast, c.length = 16 := by
  have H : ∀ (k : ℕ) (xs : List ℤ), xs.length ≤ k →
      ∀ c ∈ (chunks16 xs).dropLast, c.length = 16 := by
    intro k
    induction k with
    | zero =>
        intro xs h c hc
        have hx : xs = [] := List.eq_nil_of_length_eq_zero (by omega)
        subst hx
        rw [chunks16_nil] at hc
        exact absurd hc (List.not_mem_nil c)
    | succ k ih =>
        intro xs h c hc
        by_cases hx : xs = []
        · subst hx
          rw [chunks16_nil] at hc
          exact absurd hc (List.not_mem_nil c)
        · have hlen : xs.length ≠ 0 := fun h0 => hx (List.eq_nil_of_length_eq_zero h0)
          rw [chunks16_cons xs hx] at hc
          by_cases hd : xs.drop 16 = []
          · rw [hd, chunks16_nil] at hc
            simp only [List.dropLast_single] at hc
            exact absurd hc (List.not_mem_nil c)
          · have hd16 : 16 < xs.length := by
              by_contra hle
              push_neg at hle
              exact hd (List.drop_eq_nil_of_le hle)
            rw [chunks16_cons _ hd, List.dropLast_cons₂] at hc
            rcases List.mem_cons.mp hc with rfl | hc
            · rw [List.length_take]
              omega
            · refine ih (xs.drop 16) (by rw [List.length_drop]; omega) c ?_
              rw [chunks16_cons _ hd]
              exact hc
  exact H xs.length xs le_rfl

lemma renderData_nil : renderData [] = [] := by
  rw [renderData]
  simp

lemma tokensOf_renderData (xs : List ℤ) :
    tokensOf (renderData xs) = xs.map intDecimal := by
  have hsp : isSepChar ' ' = true := by decide
  have hcm : isSepChar ',' = true := by decide
  have hnl : isSepChar '\n' = true := by decide
  have H : ∀ (k : ℕ) (xs : List ℤ), xs.length ≤ k →
      tokensOf (renderData xs) = xs.map intDecimal := by
    intro k
    induction k with
    | zero =>
        intro xs h
        have hx : xs = [] := List.eq_nil_of_length_eq_zero (by omega)
        subst hx
        rw [renderData_nil]
        rfl
    | succ k ih =>
        intro xs h
        by_cases hx : xs = []
        · subst hx
          rw [renderData_nil]
          rfl
        · have hlen : xs.length ≠ 0 := fun h0 => hx (List.eq_nil_of_length_eq_zero h0)
          have ihd := ih (xs.drop 16) (by rw [List.length_drop]; omega)
          rw [renderData, dif_neg hx, List.append_assoc, List.append_assoc,
            tokensOf_spaces]
          by_cases h16 : 16 < xs.length
          · rw [if_pos h16, List.singleton_append]
            rw [tokensOf_renderRow _ hcm, tokensOf_sep_cons hnl, ihd]
            rw [← List.map_append, List.take_append_drop]
          · rw [if_neg h16, List.nil_append]
            rw [tokensOf_renderRow _ hnl, ihd]
            rw [← List.map_append, List.take_append_drop]
  exact H xs.length xs le_rfl

lemma newline_count_renderData (xs : List ℤ) :
    (renderData xs).count '\n' = (chunks16 xs).length := by
  have hspaces : (List.replicate 4 ' ').count '\n' = 0 := by
    rw [List.count_eq_zero]
    intro hmem
    exact absurd (List.eq_of_mem_replicate hmem) (by decide)
  have H : ∀ (k : ℕ) (xs : List ℤ), xs.length ≤ k →
      (renderData xs).count '\n' = (chunks16 xs).length := by
    intro k
    induction k with
    | zero =>
        intro xs h
        have hx : xs = [] := List.eq_nil_of_length_eq_zero (by omega)
        subst hx
        rw [renderData_nil, chunks16_nil]
        rfl
    | succ k ih =>
        intro xs h
        by_cases hx : xs = []
        · subst hx
          rw [renderData_nil, chunks16_nil]
          rfl
        · have hlen : xs.length ≠ 0 := fun h0 => hx (List.eq_nil_of_length_eq_zero h0)
          have ihd := ih (xs.drop 16) (by rw [List.length_drop]; omega)
          rw [renderData, dif_neg hx, chunks16_cons _ hx]
          rw [List.append_assoc, List.append_assoc]
          rw [List.count_append, hspaces, List.count_append, newline_count_renderRow]
          by_cases h16 : 16 < xs.length
          · rw [if_pos h16, List.singleton_append,
              List.count_cons_of_ne (by decide), List.count_cons_self, ihd]
            simp only [List.length_cons]
            omega
          · rw [if_neg h16, List.nil_append, List.count_cons_self, ihd]
            simp only [List.length_cons]
            omega
  exact H xs.length xs le_rfl

lemma comma_count_renderData (xs : List ℤ) (hx : xs ≠ []) :
    (renderData xs).count ',' = xs.length - 1 := by
  have hspaces : (List.replicate 4 ' ').count ',' = 0 := by
    rw [List.count_eq_zero]
    intro hmem
    exact absurd (List.eq_of_mem_replicate hmem) (by decide)
  have H : ∀ (k : ℕ) (xs : List ℤ), xs.length ≤ k → xs ≠ [] →
      (renderData xs).count ',' = xs.length - 1 := by
    intro k
    induction k with
    | zero =>
        intro xs h hx
        exact absurd (List.eq_nil_of_length_eq_zero (by omega)) hx
    | succ k ih =>
        intro xs h hx
        have hlen : xs.length ≠ 0 := fun h0 => hx (List.eq_nil_of_length_eq_zero h0)
        rw [renderData, dif_neg hx]
        rw [List.append_assoc, List.append_assoc]
        rw [List.count_append, hspaces, List.count_append, comma_count_renderRow]
        by_cases h16 : 16 < xs.length
        · have hd : xs.drop 16 ≠ [] := by
            intro hd0
            have := List.length_drop 16 xs
            rw [hd0] at this
            simp at this
            omega
          have ihd := ih (xs.drop 16) (by rw [List.length_drop]; omega) hd
          rw [if_pos h16, List.singleton_append, List.count_cons_self,
            List.count_cons_of_ne (by decide), ihd]
          rw [List.length_take, List.length_drop]
          omega
        · have hd : xs.drop 16 = [] := List.drop_eq_nil_of_le (by omega)
          rw [if_neg h16, List.nil_append, List.count_cons_of_ne (by decide),
            hd, renderData_nil]
          rw [List.length_take]
          simp only [List.count_nil]
          omega
  exact H xs.length xs le_rfl hx

/-- C9: the serializer emits the sample array in rows of a fixed 16
elements (every row nonempty, only the last possibly shorter), one row
per emitted line, with exactly one comma between consecutive elements and
none after the last; parsing the emitted array body back into integers
reproduces the sample sequence exactly, and the emitted length constant
equals the number of samples. -/
theorem c9_serialization (samples : List ℤ) (rate : ℕ) :
    parseData (emitHeader samples rate).dataText = samples ∧
    (emitHeader samples rate).lengthConst = samples.length ∧
    (chunks16 samples).join = samples ∧
    (∀ c ∈ chunks16 samples, c ≠ [] ∧ c.length ≤ 16) ∧
    (∀ c ∈ (chunks16 samples).dropLast, c.length = 16) ∧
    (emitHeader samples rate).dataText.count '\n' = (chunks16 samples).length ∧
    (samples ≠ [] →
      (emitHeader samples rate).dataText.count ',' = samples.length - 1) := by
  refine ⟨?_, rfl, chunks16_join samples, mem_chunks16_facts samples,
    chunks16_dropLast_sixteen samples, newline_count_renderData samples,
    comma_count_renderData samples⟩
  show (tokensOf (renderData samples)).map parseIntToken = samples
  rw [tokensOf_renderData, List.map_map]
  have h : ∀ x ∈ samples, (parseIntToken ∘ intDecimal) x = id x := fun x _ =>
    parseIntToken_intDecimal x
  rw [List.map_congr_left h, List.map_id]

/-- Witness for C9 at the concrete sample list [5, -3]: the emitted body
parses back to [5, -3] and contains exactly one comma. -/
theorem c9_serialization_witness :
    parseData (emitHeader [5, -3] 16384).dataText = [5, -3] ∧
    (emitHeader [5, -3] 16384).dataText.count ',' = [5, -3].length - 1 :=
  ⟨(c9_serialization [5, -3] 16384).1,
    (c9_serialization [5, -3] 16384).2.2.2.2.2.2 (by simp)⟩
